import Mathlib

/-!
Shallow embedding of the voice-assistant shopping backend
(`mini_store_backend/services/nlp_service.py`) and proofs about it.

Python strings are modelled as `List Char`; Python `str.lower` as a
character map over the ASCII letters (exactly the range the code relies
on); `str.split()` as splitting on whitespace runs; `" ".join` as
interleaving single spaces.  External collaborators (the rapidfuzz
scorers, the product catalog loaded from JSON, and the HTTP cart
service reached through httpx) are passed in as an explicit
environment, and a Python exception escaping `parse_command` is
modelled as `Except.error`.
-/

namespace VoiceShop

/-! ## Definitions -/

abbrev Str := List Char

/-- Model of Python `str.lower` on a single character.  Python (and the
source code) only ever relies on ASCII letters here, so the map sends
each of the 26 uppercase ASCII letters to its lowercase form and fixes
everything else. -/
def upperToLower : List (Char × Char) :=
  [('A','a'), ('B','b'), ('C','c'), ('D','d'), ('E','e'), ('F','f'), ('G','g'),
   ('H','h'), ('I','i'), ('J','j'), ('K','k'), ('L','l'), ('M','m'), ('N','n'),
   ('O','o'), ('P','p'), ('Q','q'), ('R','r'), ('S','s'), ('T','t'), ('U','u'),
   ('V','v'), ('W','w'), ('X','x'), ('Y','y'), ('Z','z')]

def pyLower (c : Char) : Char :=
  ((upperToLower.find? (fun p => p.1 == c)).map Prod.snd).getD c

/-- Python `text.lower()`. -/
def lowerStr (s : Str) : Str := s.map pyLower

/-- Python `text.split()`: split on runs of whitespace, dropping empty
pieces.  Defined by structural recursion (a leading non-space character
is glued onto the first token of the rest) so that it evaluates inside
the kernel. -/
def tokens : Str → List Str
  | [] => []
  | c :: cs =>
    if c.isWhitespace then tokens cs
    else
      match cs with
      | [] => [[c]]
      | d :: _ =>
        if d.isWhitespace then [c] :: tokens cs
        else
          match tokens cs with
          | [] => [[c]]
          | t :: ts => (c :: t) :: ts

/-- Python `" ".join(words)`. -/
def joinTok : List Str → Str
  | [] => []
  | [t] => t
  | t :: t' :: ts => t ++ ' ' :: joinTok (t' :: ts)

/-- The filler words dropped by `correct_voice_input`
(`["the", "my", "to", "a", "an"]` in the source). -/
def fillerWords : List Str :=
  (["the", "my", "to", "a", "an"]).map String.data

/-- `COMMON_VOICE_CORRECTIONS` from the source, in source order. -/
def COMMON_VOICE_CORRECTIONS : List (Str × Str) :=
  ([("cut", "cart"), ("kat", "cart"), ("kart", "cart"), ("caught", "cart"),
    ("cot", "cart"), ("cat", "cart"),
    ("ad", "add"), ("had", "add"), ("at", "add"), ("ed", "add"),
    ("remov", "remove"), ("remove", "remove"), ("delete", "remove"),
    ("so", "show"), ("sho", "show"),
    ("apples", "apple"), ("aple", "apple"), ("aplle", "apple"),
    ("milk", "milk"), ("melk", "milk"), ("milke", "milk"),
    ("bred", "bread"), ("brd", "bread"),
    ("bananas", "banana"), ("bannana", "banana"), ("banna", "banana"),
    ("tomatos", "tomato"), ("tomatoes", "tomato"),
    ("potatos", "potato"), ("potatoes", "potato")]).map
    (fun p => (p.1.data, p.2.data))

/-- `COMMON_VOICE_CORRECTIONS.get(word, word)`. -/
def applyCorrection (w : Str) : Str :=
  ((COMMON_VOICE_CORRECTIONS.find? (fun p => p.1 == w)).map Prod.snd).getD w

/-- Is `w` one of the filler words? (`word in ["the","my","to","a","an"]`). -/
def isFiller (w : Str) : Bool := fillerWords.any (fun s => s == w)

/-- `correct_voice_input` from the source: lowercase, split on
whitespace, drop filler words, replace each remaining token through the
correction table, rejoin with single spaces. -/
def correct_voice_input (text : Str) : Str :=
  joinTok (((tokens (lowerStr text)).filter (fun w => !isFiller w)).map applyCorrection)

/-- Substring containment, Python `needle in hay`. -/
def substr (needle hay : Str) : Bool := decide (needle <:+: hay)

/-- The `word_to_num` table of `extract_quantity`, in source (insertion)
order. -/
def word_to_num : List (Str × Nat) :=
  ([("one", 1), ("two", 2), ("three", 3), ("four", 4), ("five", 5),
    ("six", 6), ("seven", 7), ("eight", 8), ("nine", 9), ("ten", 10),
    ("eleven", 11), ("twelve", 12), ("fifteen", 15), ("twenty", 20),
    ("a", 1), ("an", 1), ("single", 1), ("couple", 2), ("few", 3)]).map
    (fun p => (p.1.data, p.2))

/-- Python `\w`: a regex word character (ASCII model). -/
def isWordChar (c : Char) : Bool := c.isAlphanum || c == '_'

/-- Numeric value of a digit string. -/
def natOfDigits (l : Str) : Nat :=
  l.foldl (fun acc c => acc * 10 + (c.toNat - '0'.toNat)) 0

/-- Model of `re.search(r"\b(\d+)\b", text)`: the first maximal digit
run that has a word boundary on both sides.  `prevWord` records whether
the character just before the current position is a word character. -/
def findQtyAux (prevWord : Bool) : Str → Option Nat
  | [] => none
  | c :: cs =>
    if c.isDigit && !prevWord then
      let run := c :: cs.takeWhile Char.isDigit
      match cs.dropWhile Char.isDigit with
      | [] => some (natOfDigits run)
      | d :: _ =>
        if isWordChar d then findQtyAux true cs
        else some (natOfDigits run)
    else findQtyAux (isWordChar c) cs

def findQty (text : Str) : Option Nat := findQtyAux false text

/-- `extract_quantity` from the source: first word-table entry occurring
as a substring of the lowercased text wins; otherwise the first
boundary-delimited digit run; otherwise 1. -/
def extract_quantity (text : Str) : Nat :=
  let text_lower := lowerStr text
  match word_to_num.find? (fun p => substr p.1 text_lower) with
  | some p => p.2
  | none =>
    match findQty text with
    | some n => n
    | none => 1

inductive Intent where
  | view_cart | clear_cart | add_to_cart | remove_from_cart
  | search_product | list_products | unknown
deriving DecidableEq, Repr

/-- Rule 1 phrases (view cart). -/
def viewPhrases : List Str :=
  (["show cart", "view cart", "my cart", "open cart", "check cart",
    "see cart", "what\u0027s in my cart", "cart items"]).map String.data

/-- Rule 2 phrases (clear cart). -/
def clearPhrases : List Str :=
  (["clear cart", "empty cart", "remove all", "delete all",
    "clear my cart", "empty my cart"]).map String.data

/-- Rule 3 words (add to cart). -/
def addWords : List Str :=
  (["add", "buy", "get", "purchase", "i want", "i need"]).map String.data

/-- Rule 4 words (remove from cart). -/
def removeWords : List Str :=
  (["remove", "delete", "cancel", "take out", "drop"]).map String.data

/-- Rule 5 words (search product). -/
def searchWords : List Str :=
  (["find", "search", "show", "look for", "where is", "do you have",
    "tell me about"]).map String.data

/-- Rule 6 phrases (list products). -/
def listPhrases : List Str :=
  (["list", "show all", "available", "what do you have", "all products"]).map
    String.data

def anySub (ps : List Str) (t : Str) : Bool := ps.any (fun p => substr p t)

/-- `detect_intent` from the source: lowercase, run
`correct_voice_input`, then ordered rule matching with first match
winning. -/
def detect_intent (text : Str) : Intent :=
  let text_lower := correct_voice_input (lowerStr text)
  if anySub viewPhrases text_lower then .view_cart
  else if anySub clearPhrases text_lower then .clear_cart
  else if anySub addWords text_lower then .add_to_cart
  else if anySub removeWords text_lower then .remove_from_cart
  else if anySub searchWords text_lower then .search_product
  else if anySub listPhrases text_lower then .list_products
  else .search_product

structure Product where
  id : Str
  name : Str
  price : ℚ
  image : Str
  category : Str
deriving DecidableEq, Repr

/-- A product together with the relevance or similarity score attached
by a recommendation strategy (`none` for the bare products returned by
the anchorless branch of `get_related_recommendations`). -/
abbrev Scored := Product × Option ℚ

/-- Structured stand-ins for the f-string messages built by the source;
only the shape and the interpolated data are modelled, not the exact
wording. -/
inductive Msg where
  | empty
  | didntHear
  | catalogUnavailable
  | cartContains (count : Nat)
  | cartCleared
  | productsAvailable (count : Nat)
  | added (qty : Nat) (name : Str) (total : ℚ)
  | addedSyncPending (qty : Nat) (name : Str)
  | removed (name : Str)
  | removedSyncPending (name : Str)
  | found (name : Str) (price : ℚ) (category : Str)
  | noExactMatch (text : Str)
  | noMatch (text : Str)
deriving DecidableEq, Repr

/-- The JSON body returned by `GET /cart/{user}`:
`cart_data.get("items", [])` and `cart_data.get("message", ...)`. -/
structure Cart where
  items : List Unit
  message : Option Msg
deriving DecidableEq, Repr

structure Slots where
  product_name : Option Str
  product_id : Option Str
  quantity : Nat
  category : Option Str
  cart : Option Cart
deriving DecidableEq, Repr

/-- The `result` dictionary returned by `parse_command`. -/
structure ParsedResult where
  intent : Intent
  slots : Slots
  confidence : ℚ
  recommendations : List Scored
  message : Msg
  user_id : Option Str
deriving DecidableEq, Repr

/-- The collaborators of the interpreter: the product catalog (the
JSON file read by `load_products`), the two rapidfuzz scorers, and the
four HTTP cart operations, each of which can fail (raise). -/
structure Env where
  products : List Product
  tokenSetRatio : Str → Str → ℚ
  pRatio : Str → Str → ℚ
  getCart : Option Str → Except Unit Cart
  clearCart : Option Str → Except Unit Unit
  addCart : Option Str → Product → Nat → Except Unit Unit
  removeCart : Option Str → Product → Except Unit Unit

def scoreOf (r : Scored) : ℚ := r.2.getD 0

/-- Stable insertion preserving descending score order: the inserted
element walks past strictly greater scores only, so it lands in front
of every element already present whose score equals its own and the
original order of equal scores is preserved. -/
def insertDesc (x : Scored) : List Scored → List Scored
  | [] => [x]
  | y :: ys => if scoreOf x < scoreOf y then y :: insertDesc x ys else x :: y :: ys

/-- Model of Python `list.sort(key=..., reverse=True)`: a stable sort
into descending score order. -/
def sortDesc : List Scored → List Scored
  | [] => []
  | x :: xs => insertDesc x (sortDesc xs)

/-- The `related` list of `get_related_recommendations`: the scored
non-anchor products, in catalog order, before the sort. -/
def relatedScored (products : List Product) (product_id : Str)
    (current : Product) : List Scored :=
  products.filterMap (fun p =>
    if p.id == product_id then none
    else
      let score : ℚ :=
        (if p.category == current.category then 50 else 0) +
        (if |p.price - current.price| / current.price < 3/10 then 30
         else if |p.price - current.price| / current.price < 1/2 then 15
         else 0)
      if 0 < score then some (p, some score) else none)

/-- `get_related_recommendations` from the source.  The catalog
(`load_products()`) is passed in explicitly.  Note the source divides
by the anchor price, so the model is faithful for nonzero anchor
prices (Python raises `ZeroDivisionError` at price 0). -/
def get_related_recommendations (products : List Product) (product_id : Str)
    (limit : Nat) : List Scored :=
  match products.find? (fun p => p.id == product_id) with
  | none => (products.take limit).map (fun p => (p, none))
  | some current => (sortDesc (relatedScored products product_id current)).take limit

/-- `get_similar_products` from the source: keep products whose best
partial-ratio score against name or category exceeds 40, sorted by
descending score. -/
def get_similar_products (env : Env) (search_term : Str) (limit : Nat) :
    List Scored :=
  let results := env.products.filterMap (fun p =>
    let name_score := env.pRatio (lowerStr search_term) (lowerStr p.name)
    let category_score := env.pRatio (lowerStr search_term) (lowerStr p.category)
    let score := max name_score category_score
    if 40 < score then some (p, some score) else none)
  (sortDesc results).take limit

def extractOneAux (scorer : Str → Str → ℚ) (q : Str) :
    Str × ℚ → List Str → Str × ℚ
  | best, [] => best
  | best, c :: cs =>
    let s := scorer q c
    if best.2 < s then extractOneAux scorer q (c, s) cs
    else extractOneAux scorer q best cs

/-- `process.extractOne(query, choices, scorer=...)`: best score wins,
first of equals wins. -/
def extractOne (scorer : Str → Str → ℚ) (q : Str) (choices : List Str) :
    Option (Str × ℚ) :=
  match choices with
  | [] => none
  | c :: cs => some (extractOneAux scorer q (c, scorer q c) cs)

/-- Round half to even, on rationals. -/
def rhe (q : ℚ) : ℤ :=
  let f := ⌊q⌋
  let r := q - f
  if r < 1/2 then f
  else if 1/2 < r then f + 1
  else if f % 2 = 0 then f else f + 1

/-- Python `round(x, 2)` (idealized over exact rationals). -/
def round2 (q : ℚ) : ℚ := ((rhe (q * 100) : ℤ) : ℚ) / 100

/-- Python `text.strip()`. -/
def pyStrip (l : Str) : Str :=
  ((l.dropWhile Char.isWhitespace).reverse.dropWhile Char.isWhitespace).reverse

/-- The input normalization at the top of `parse_command`:
`(text or "").lower().strip()` then `correct_voice_input`. -/
def preprocess (text : Str) : Str := correct_voice_input (pyStrip (lowerStr text))

def emptySlots : Slots :=
  { product_name := none, product_id := none, quantity := 1,
    category := none, cart := none }

/-- The `view_cart` branch of `parse_command`: the `GET /cart` call is
not wrapped in `try`/`except`, so its failure escapes. -/
def viewBranch (env : Env) (user_id : Option Str) (base : ParsedResult) :
    Except Unit ParsedResult :=
  match env.getCart user_id with
  | .error e => .error e
  | .ok cart_data =>
    .ok { base with
          slots := { base.slots with cart := some cart_data },
          message := cart_data.message.getD (.cartContains cart_data.items.length),
          confidence := 1 }

/-- The `clear_cart` branch of `parse_command`: the `DELETE /clear`
call is not wrapped in `try`/`except`, so its failure escapes. -/
def clearBranch (env : Env) (user_id : Option Str) (base : ParsedResult) :
    Except Unit ParsedResult :=
  match env.clearCart user_id with
  | .error e => .error e
  | .ok _ => .ok { base with message := .cartCleared, confidence := 1 }

/-- The shared no-direct-match tail of `parse_command`: similar
products with confidence 0.5, or the no-match message with the
confidence left at 0. -/
def similarFallback (env : Env) (text : Str) (base : ParsedResult) :
    Except Unit ParsedResult :=
  if get_similar_products env text 5 = [] then
    .ok { base with message := .noMatch text }
  else
    .ok { base with
          recommendations := get_similar_products env text 5,
          message := .noExactMatch text,
          confidence := 1/2 }

/-- The message produced under `if matched_product:`: only the
`add_to_cart` and `remove_from_cart` HTTP calls sit inside
`try`/`except`, degrading to a "sync pending" message. -/
def boundMsg (env : Env) (user_id : Option Str) (intent : Intent)
    (qty : Nat) (mp : Product) : Msg :=
  if intent = .add_to_cart then
    match env.addCart user_id mp qty with
    | .ok _ => .added qty mp.name (mp.price * qty)
    | .error _ => .addedSyncPending qty mp.name
  else if intent = .remove_from_cart then
    match env.removeCart user_id mp with
    | .ok _ => .removed mp.name
    | .error _ => .removedSyncPending mp.name
  else if intent = .search_product then .found mp.name mp.price mp.category
  else .empty

/-- The result built under `if matched_product:`: slots filled,
confidence from the fuzzy score, message from the cart side effect,
related recommendations attached. -/
def boundRecord (env : Env) (user_id : Option Str) (intent : Intent)
    (qty : Nat) (base : ParsedResult) (mp : Product) (score : ℚ) :
    ParsedResult :=
  { base with
    slots := { base.slots with
               product_name := some mp.name,
               product_id := some mp.id,
               category := some mp.category },
    confidence := round2 (score / 100),
    message := boundMsg env user_id intent qty mp,
    recommendations := get_related_recommendations env.products mp.id 5 }

/-- The fuzzy product-resolution branch of `parse_command`. -/
def resolveBranch (env : Env) (text : Str) (user_id : Option Str)
    (intent : Intent) (qty : Nat) (base : ParsedResult) :
    Except Unit ParsedResult :=
  match extractOne env.tokenSetRatio text
      (env.products.map (fun p => lowerStr p.name)) with
  | none => similarFallback env text base
  | some (matched_name, score) =>
    if 60 ≤ score then
      match env.products.find? (fun p => lowerStr p.name == matched_name) with
      | none => similarFallback env text base
      | some mp => .ok (boundRecord env user_id intent qty base mp score)
    else similarFallback env text base

/-- The result dictionary as initialized at the top of
`parse_command`. -/
def base0R (user_id : Option Str) : ParsedResult :=
  { intent := .unknown, slots := emptySlots, confidence := 0,
    recommendations := [], message := .empty, user_id := user_id }

/-- The result dictionary after intent detection and quantity
extraction. -/
def baseR (text : Str) (user_id : Option Str) : ParsedResult :=
  { base0R user_id with
    intent := detect_intent text,
    slots := { emptySlots with quantity := extract_quantity text } }

/-- `parse_command` from the source.  A Python exception escaping the
function is `.error ()`; in the source only the `add_to_cart` and
`remove_from_cart` collaborator calls sit inside `try`/`except`. -/
def parse_command (env : Env) (text0 : Str) (user_id : Option Str) :
    Except Unit ParsedResult :=
  let text := preprocess text0
  if text = [] then .ok { base0R user_id with message := .didntHear }
  else if env.products = [] then
    .ok { baseR text user_id with message := .catalogUnavailable }
  else if detect_intent text = .view_cart then
    viewBranch env user_id (baseR text user_id)
  else if detect_intent text = .clear_cart then
    clearBranch env user_id (baseR text user_id)
  else if detect_intent text = .list_products then
    .ok { baseR text user_id with
          message := .productsAvailable env.products.length,
          recommendations := get_similar_products env text 5,
          confidence := 1 }
  else
    resolveBranch env text user_id (detect_intent text)
      (extract_quantity text) (baseR text user_id)

instance {ε α : Type} [DecidableEq ε] [DecidableEq α] :
    DecidableEq (Except ε α) := fun x y =>
  match x, y with
  | .error a, .error b =>
    if h : a = b then isTrue (by rw [h])
    else isFalse (fun hh => h (by cases hh; rfl))
  | .ok a, .ok b =>
    if h : a = b then isTrue (by rw [h])
    else isFalse (fun hh => h (by cases hh; rfl))
  | .error _, .ok _ => isFalse (fun hh => by cases hh)
  | .ok _, .error _ => isFalse (fun hh => by cases hh)

def appleProduct : Product :=
  { id := "p1".data, name := "apple".data, price := 5, image := "img".data,
    category := "fruits".data }

/-- Environment whose cart collaborator always fails (the cart service
is unreachable) and whose token-set scorer always returns 100. -/
def envFail : Env :=
  { products := [appleProduct],
    tokenSetRatio := fun _ _ => 100,
    pRatio := fun _ _ => 0,
    getCart := fun _ => .error (),
    clearCart := fun _ => .error (),
    addCart := fun _ _ _ => .error (),
    removeCart := fun _ _ => .error () }

/-- Short name for the predicate `split` keeps characters by. -/
def notWs (c : Char) : Bool := !c.isWhitespace

/-- The related-products score as the claim words it: +50 for the same
category, +30 when the price differs from the anchor price by less than
30 percent, +15 when it differs by 30 to 50 percent, else +0. -/
def specRelScore (anchor p : Product) : ℚ :=
  (if p.category = anchor.category then 50 else 0) +
  (if |p.price - anchor.price| < 3/10 * anchor.price then 30
   else if |p.price - anchor.price| < 1/2 * anchor.price then 15 else 0)

/-- The related-products pipeline as the claim words it: score every
non-anchor product, keep the ones scoring more than 0, stable-sort
descending, take the top N with the score attached. -/
def specRelated (products : List Product) (pid : Str) (anchor : Product)
    (limit : Nat) : List Scored :=
  (sortDesc (products.filterMap (fun p =>
    if p.id = pid then none
    else if 0 < specRelScore anchor p then some (p, some (specRelScore anchor p))
    else none))).take limit

/-- Descending order of attached scores. -/
def SortedDescBy (l : List Scored) : Prop :=
  l.Pairwise (fun a b => scoreOf b ≤ scoreOf a)

/-- The concrete catalog of the claim example: an anchor priced 100, a
same-category product priced 110, a different-category product priced
105. -/
def exAnchor : Product :=
  { id := "a".data, name := "anchor".data, price := 100, image := [],
    category := "g".data }

def exSame : Product :=
  { id := "b".data, name := "same".data, price := 110, image := [],
    category := "g".data }

def exDiff : Product :=
  { id := "c".data, name := "diff".data, price := 105, image := [],
    category := "h".data }

def exCatalog : List Product := [exAnchor, exSame, exDiff]

/-- A catalog producing a tie: both non-anchor products share the
anchor category and the anchor price, so both score 80, and a stable
sort must keep them in catalog order. -/
def exAnchor2 : Product :=
  { id := "a".data, name := "anchor2".data, price := 100, image := [],
    category := "g".data }

def exTie1 : Product :=
  { id := "b".data, name := "tie one".data, price := 100, image := [],
    category := "g".data }

def exTie2 : Product :=
  { id := "c".data, name := "tie two".data, price := 100, image := [],
    category := "g".data }

def exTieCatalog : List Product := [exAnchor2, exTie1, exTie2]

/-- Environment for the C7 witness: one product, constant token-set
score 100, similarity scorer 0, healthy collaborators. -/
def envOk : Env :=
  { products := [appleProduct],
    tokenSetRatio := fun _ _ => 100,
    pRatio := fun _ _ => 0,
    getCart := fun _ => .ok { items := [], message := none },
    clearCart := fun _ => .ok (),
    addCart := fun _ _ _ => .ok (),
    removeCart := fun _ _ => .ok () }

/-- Environment with an empty catalog and healthy collaborators. -/
def envEmpty : Env :=
  { products := [],
    tokenSetRatio := fun _ _ => 0,
    pRatio := fun _ _ => 0,
    getCart := fun _ => .ok { items := [], message := none },
    clearCart := fun _ => .ok (),
    addCart := fun _ _ _ => .ok (),
    removeCart := fun _ _ => .ok () }

/-- The result of `parse_command envOk "add apple" none`, used by the
C8 witness. -/
def rW : ParsedResult :=
  { intent := .add_to_cart,
    slots := { product_name := some "apple".data, product_id := some "p1".data,
               quantity := 1, category := some "fruits".data, cart := none },
    confidence := 1, recommendations := [],
    message := .added 1 "apple".data 5, user_id := none }

/-! ## Theorems -/

theorem extractOne_ne_none {scorer : Str → Str → ℚ} {q : Str}
    {choices : List Str} (h : choices ≠ []) :
    extractOne scorer q choices ≠ none := by
  match choices, h with
  | c :: cs, _ => simp [extractOne]

theorem extractOneAux_fst_mem (scorer : Str → Str → ℚ) (q : Str) :
    ∀ (l : List Str) (b : Str × ℚ),
      (extractOneAux scorer q b l).1 = b.1 ∨ (extractOneAux scorer q b l).1 ∈ l
  | [], b => Or.inl rfl
  | c :: cs, b => by
    rw [extractOneAux]
    split
    · rcases extractOneAux_fst_mem scorer q cs (c, scorer q c) with h | h
      · exact Or.inr (by rw [h]; exact List.mem_cons_self _ _)
      · exact Or.inr (List.mem_cons_of_mem _ h)
    · rcases extractOneAux_fst_mem scorer q cs b with h | h
      · exact Or.inl h
      · exact Or.inr (List.mem_cons_of_mem _ h)

theorem extractOne_fst_mem {scorer : Str → Str → ℚ} {q n : Str} {s : ℚ}
    {choices : List Str} (h : extractOne scorer q choices = some (n, s)) :
    n ∈ choices := by
  match choices with
  | [] => simp [extractOne] at h
  | c :: cs =>
    rw [extractOne] at h
    injection h with h
    rcases extractOneAux_fst_mem scorer q cs (c, scorer q c) with h1 | h1 <;>
      rw [h] at h1
    · simp only at h1
      subst h1
      exact List.mem_cons_self _ _
    · exact List.mem_cons_of_mem _ h1

/-- Any predicate on scores closed under the scorer and holding for the
seed holds for the result of the fold. -/
theorem extractOneAux_snd_prop (scorer : Str → Str → ℚ) (q : Str)
    (P : ℚ → Prop) (hP : ∀ c, P (scorer q c)) :
    ∀ (l : List Str) (b : Str × ℚ), P b.2 →
      P (extractOneAux scorer q b l).2
  | [], _, hb => hb
  | c :: cs, b, hb => by
    rw [extractOneAux]
    split
    · exact extractOneAux_snd_prop scorer q P hP cs (c, scorer q c) (hP c)
    · exact extractOneAux_snd_prop scorer q P hP cs b hb

theorem extractOne_score_bounds {scorer : Str → Str → ℚ} {q n : Str} {s : ℚ}
    {choices : List Str}
    (hb : ∀ a b, 0 ≤ scorer a b ∧ scorer a b ≤ 100)
    (h : extractOne scorer q choices = some (n, s)) : 0 ≤ s ∧ s ≤ 100 := by
  match choices with
  | [] => simp [extractOne] at h
  | c :: cs =>
    rw [extractOne] at h
    injection h with h
    have hprop := extractOneAux_snd_prop scorer q (fun x => 0 ≤ x ∧ x ≤ 100)
      (fun d => hb q d) cs (c, scorer q c) (hb q c)
    rw [h] at hprop
    exact hprop

theorem floor_le_rhe (q : ℚ) : ⌊q⌋ ≤ rhe q := by
  rw [rhe]
  split_ifs <;> omega

theorem le_rhe_of_le {q : ℚ} {n : ℤ} (h : (n : ℚ) ≤ q) : n ≤ rhe q :=
  le_trans (Int.le_floor.mpr h) (floor_le_rhe q)

theorem rhe_le_of_le {q : ℚ} {n : ℤ} (h : q ≤ (n : ℚ)) : rhe q ≤ n := by
  have hfl : ⌊q⌋ ≤ n := by
    have hmono := Int.floor_le_floor h
    rwa [Int.floor_intCast] at hmono
  have hq : (⌊q⌋ : ℚ) ≤ q := Int.floor_le q
  rw [rhe]
  split_ifs with h1 h2 h3
  · exact hfl
  · rcases lt_or_eq_of_le hfl with hlt | heq
    · omega
    · exfalso
      have hcast : ((⌊q⌋ : ℤ) : ℚ) = (n : ℚ) := by exact_mod_cast heq
      linarith
  · exact hfl
  · rcases lt_or_eq_of_le hfl with hlt | heq
    · omega
    · exfalso
      have h1' : 1/2 ≤ q - (⌊q⌋ : ℚ) := le_of_not_lt h1
      have hcast : ((⌊q⌋ : ℤ) : ℚ) = (n : ℚ) := by exact_mod_cast heq
      linarith

theorem round2_div100 (s : ℚ) : round2 (s / 100) = (rhe s : ℚ) / 100 := by
  rw [round2, div_mul_cancel₀ s (by norm_num : (100 : ℚ) ≠ 0)]

theorem round2_score_bounds {s : ℚ} (h0 : 0 ≤ s) (h100 : s ≤ 100)
    (h60 : 60 ≤ s) :
    3/5 ≤ round2 (s / 100) ∧ round2 (s / 100) ≤ 1 ∧ 0 ≤ round2 (s / 100) := by
  rw [round2_div100]
  have hlo : (60 : ℤ) ≤ rhe s := le_rhe_of_le (by exact_mod_cast h60)
  have hhi : rhe s ≤ (100 : ℤ) := rhe_le_of_le (by exact_mod_cast h100)
  have hz : (0 : ℤ) ≤ rhe s := le_rhe_of_le (by exact_mod_cast h0)
  have hlo' : (60 : ℚ) ≤ ((rhe s : ℤ) : ℚ) := by exact_mod_cast hlo
  have hhi' : ((rhe s : ℤ) : ℚ) ≤ 100 := by exact_mod_cast hhi
  have hz' : (0 : ℚ) ≤ ((rhe s : ℤ) : ℚ) := by exact_mod_cast hz
  refine ⟨?_, ?_, ?_⟩
  · rw [le_div_iff₀ (by norm_num : (0:ℚ) < 100)]
    linarith
  · rw [div_le_one (by norm_num : (0:ℚ) < 100)]
    exact hhi'
  · positivity

theorem tokens_cons_neg {c : Char} (cs : Str) (hc : c.isWhitespace = true) :
    tokens (c :: cs) = tokens cs := by
  simp [tokens, hc]

theorem tokens_nil : tokens [] = [] := rfl

theorem tokens_cons_pos {c : Char} (cs : Str) (hc : c.isWhitespace = false) :
    tokens (c :: cs) =
      (c :: cs.takeWhile notWs) :: tokens (cs.dropWhile notWs) := by
  induction cs generalizing c with
  | nil => simp [tokens, hc]
  | cons d cs' ih =>
    by_cases hdb : d.isWhitespace
    · simp [tokens, hc, hdb, List.takeWhile_cons, List.dropWhile_cons, notWs]
    · have hd' : d.isWhitespace = false := by simpa using hdb
      have ih' := ih (c := d) hd'
      rw [tokens.eq_def]
      simp only [hc, hd', Bool.false_eq_true, if_false, ih']
      simp [List.takeWhile_cons, List.dropWhile_cons, notWs, hd']

theorem takeWhile_append_stop {p : Char → Bool} {y : Char} (xs ys : Str)
    (hy : p y = false) : (xs ++ y :: ys).takeWhile p = xs.takeWhile p := by
  induction xs with
  | nil => simp [List.takeWhile_cons, hy]
  | cons x xs' ih =>
    by_cases hx : p x
    · simp [List.takeWhile_cons, hx, ih]
    · simp [List.takeWhile_cons, hx]

theorem dropWhile_append_stop {p : Char → Bool} {y : Char} (xs ys : Str)
    (hy : p y = false) :
    (xs ++ y :: ys).dropWhile p = xs.dropWhile p ++ y :: ys := by
  induction xs with
  | nil => simp [List.dropWhile_cons, hy]
  | cons x xs' ih =>
    by_cases hx : p x
    · simp [List.dropWhile_cons, hx, ih]
    · simp [List.dropWhile_cons, hx]

/-- The head of a nonempty `dropWhile` residue fails the predicate. -/
theorem dropWhile_head_false {p : Char → Bool} {l : Str} {e : Char} {s : Str}
    (h : l.dropWhile p = e :: s) : p e = false := by
  induction l with
  | nil => simp [List.dropWhile_nil] at h
  | cons x xs ih =>
    rw [List.dropWhile_cons] at h
    split at h
    · exact ih h
    · injection h with h1 h2
      subst h1
      rename_i hx
      simpa using hx

/-- Splitting at an explicit space splits the token list. -/
theorem tokens_append_space : ∀ (a b : Str),
    tokens (a ++ ' ' :: b) = tokens a ++ tokens b
  | [], b => by
    simp [tokens_nil, tokens_cons_neg (c := ' ') b (by decide)]
  | c :: a', b => by
    by_cases hc : c.isWhitespace
    · rw [List.cons_append, tokens_cons_neg _ hc, tokens_cons_neg _ hc,
        tokens_append_space a' b]
    · have hc' : c.isWhitespace = false := by simpa using hc
      have hsp : notWs ' ' = false := by decide
      rw [List.cons_append, tokens_cons_pos _ hc', tokens_cons_pos _ hc',
        takeWhile_append_stop a' b hsp, dropWhile_append_stop a' b hsp,
        tokens_append_space (a'.dropWhile notWs) b, List.cons_append]
termination_by a _ => a.length
decreasing_by
  · simp only [List.length_cons]; omega
  · have h := (List.dropWhile_sublist (l := a') notWs).length_le
    simp only [List.length_cons]; omega

/-- A nonempty all-non-space word at the front of the text starts the
first token. -/
theorem tokens_append_word (w v : Str) (hw : w ≠ [])
    (hnw : ∀ c ∈ w, c.isWhitespace = false) :
    ∃ y B, tokens (w ++ v) = y :: B ∧ w <+: y := by
  match w, hw with
  | c :: rest, _ =>
    have hc : c.isWhitespace = false := hnw c (by simp)
    have hrest : ∀ x ∈ rest, notWs x = true := by
      intro x hx; simp [notWs, hnw x (by simp [hx])]
    refine ⟨c :: (rest ++ v.takeWhile notWs),
      tokens ((rest ++ v).dropWhile notWs), ?_, ?_⟩
    · rw [List.cons_append, tokens_cons_pos _ hc,
        List.takeWhile_append_of_pos hrest]
    · exact ⟨v.takeWhile notWs, by simp⟩

/-- A nonempty all-non-space word at the back of the text ends the
last token. -/
theorem tokens_word_append : ∀ (u : Str) (w : Str), w ≠ [] →
    (∀ c ∈ w, c.isWhitespace = false) →
    ∃ A x, tokens (u ++ w) = A ++ [x] ∧ w <:+ x
  | [], w, hw, hnw => by
    match w, hw with
    | c :: rest, _ =>
      have hc : c.isWhitespace = false := hnw c (by simp)
      have hrest : ∀ x ∈ rest, notWs x = true := by
        intro x hx; simp  [notWs, hnw x (by simp [hx])]
      refine ⟨[], c :: rest, ?_, List.suffix_rfl⟩
      rw [List.nil_append, tokens_cons_pos _ hc,
        List.takeWhile_eq_self_iff.mpr hrest,
        List.dropWhile_eq_nil_iff.mpr hrest]
      rfl
  | c :: u', w, hw, hnw => by
    by_cases hc : c.isWhitespace
    · rw [List.cons_append, tokens_cons_neg _ hc]
      exact tokens_word_append u' w hw hnw
    · have hc' : c.isWhitespace = false := by simpa using hc
      rw [List.cons_append, tokens_cons_pos _ hc']
      by_cases hall : ∀ x ∈ u', notWs x = true
      · have hwall : ∀ x ∈ w, notWs x = true := by
          intro x hx; simp [notWs, hnw x hx]
        have hall2 : ∀ x ∈ u' ++ w, notWs x = true := by
          intro x hx
          rcases List.mem_append.mp hx with h | h
          · exact hall x h
          · exact hwall x h
        refine ⟨[], c :: ((u' ++ w).takeWhile notWs), ?_, ?_⟩
        · rw [List.dropWhile_eq_nil_iff.mpr hall2]
          rfl
        · rw [List.takeWhile_eq_self_iff.mpr hall2]
          exact ⟨c :: u', rfl⟩
      · have hne : u'.dropWhile notWs ≠ [] := by
          intro h
          exact hall (List.dropWhile_eq_nil_iff.mp h)
        match hd : u'.dropWhile notWs, hne with
        | e :: s, _ =>
          have he : notWs e = false := dropWhile_head_false hd
          have hsplit : (u' ++ w).dropWhile notWs = e :: (s ++ w) := by
            rw [List.dropWhile_append, hd]
            simp
          have he' : e.isWhitespace = true := by
            simpa [notWs] using he
          obtain ⟨A', x', hx', hsuf⟩ := tokens_word_append s w hw hnw
          refine ⟨(c :: (u' ++ w).takeWhile notWs) :: A', x', ?_, hsuf⟩
          rw [hsplit, tokens_cons_neg _ he', hx']
          rfl
termination_by u _ _ _ => u.length
decreasing_by
  · simp only [List.length_cons]; omega
  · have h := (List.dropWhile_sublist (l := u') notWs).length_le
    rw [hd] at h
    simp only [List.length_cons] at h ⊢
    omega

theorem joinTok_cons_ne (t : Str) {l : List Str} (h : l ≠ []) :
    joinTok (t :: l) = t ++ ' ' :: joinTok l := by
  cases l with
  | nil => exact absurd rfl h
  | cons q qs => rfl

/-- Two adjacent tokens appear in the join separated by one space. -/
theorem joinTok_adjacent (A B : List Str) (x y : Str) :
    (x ++ ' ' :: y) <:+: joinTok (A ++ x :: y :: B) := by
  induction A with
  | nil =>
    have hy : y <+: joinTok (y :: B) := by
      cases B with
      | nil => exact List.prefix_rfl
      | cons b bs => exact ⟨' ' :: joinTok (b :: bs), rfl⟩
    obtain ⟨t, ht⟩ := hy
    refine ⟨[], t, ?_⟩
    simp only [List.nil_append]
    rw [joinTok_cons_ne x (by simp), ← ht]
    simp
  | cons a A' ih =>
    obtain ⟨u, v, huv⟩ := ih
    refine ⟨a ++ ' ' :: u, v, ?_⟩
    rw [List.cons_append, joinTok_cons_ne a (by simp), ← huv]
    simp

/-- If `w` is a suffix of `x` but of no filler word, `x` is not a
filler word. -/
theorem isFiller_false_of_suf {w x : Str} (hs : w <:+ x)
    (hw : ∀ s ∈ fillerWords, ¬ w <:+ s) : isFiller x = false := by
  rw [isFiller, List.any_eq_false]
  intro s hsmem
  simp only [beq_iff_eq]
  intro he
  exact hw s hsmem (he ▸ hs)

theorem isFiller_false_of_pref {w x : Str} (hs : w <+: x)
    (hw : ∀ s ∈ fillerWords, ¬ w <+: s) : isFiller x = false := by
  rw [isFiller, List.any_eq_false]
  intro s hsmem
  simp only [beq_iff_eq]
  intro he
  exact hw s hsmem (he ▸ hs)

/-- If `w` is a suffix of `x` but of no correction key, the correction
table leaves `x` unchanged. -/
theorem applyCorrection_id_of_suf {w x : Str} (hs : w <:+ x)
    (hw : ∀ p ∈ COMMON_VOICE_CORRECTIONS, ¬ w <:+ p.1) :
    applyCorrection x = x := by
  have hnone : COMMON_VOICE_CORRECTIONS.find? (fun p => p.1 == x) = none := by
    rw [List.find?_eq_none]
    intro p hp
    simp only [beq_iff_eq]
    intro he
    exact hw p hp (he ▸ hs)
  rw [applyCorrection, hnone]
  rfl

theorem applyCorrection_id_of_pref {w x : Str} (hs : w <+: x)
    (hw : ∀ p ∈ COMMON_VOICE_CORRECTIONS, ¬ w <+: p.1) :
    applyCorrection x = x := by
  have hnone : COMMON_VOICE_CORRECTIONS.find? (fun p => p.1 == x) = none := by
    rw [List.find?_eq_none]
    intro p hp
    simp only [beq_iff_eq]
    intro he
    exact hw p hp (he ▸ hs)
  rw [applyCorrection, hnone]
  rfl

/-- The central preservation lemma: a two-word phrase whose first word
is a suffix of no filler word or correction key and whose second word
is a prefix of no filler word or correction key survives
`correct_voice_input` whenever it occurs in the (lowercased) input. -/
theorem cvi_preserves (w1 w2 t : Str)
    (h1 : w1 ≠ []) (h1w : ∀ c ∈ w1, c.isWhitespace = false)
    (h2 : w2 ≠ []) (h2w : ∀ c ∈ w2, c.isWhitespace = false)
    (hf1 : ∀ s ∈ fillerWords, ¬ w1 <:+ s)
    (hk1 : ∀ p ∈ COMMON_VOICE_CORRECTIONS, ¬ w1 <:+ p.1)
    (hf2 : ∀ s ∈ fillerWords, ¬ w2 <+: s)
    (hk2 : ∀ p ∈ COMMON_VOICE_CORRECTIONS, ¬ w2 <+: p.1)
    (hlow : lowerStr (w1 ++ ' ' :: w2) = w1 ++ ' ' :: w2)
    (hin : (w1 ++ ' ' :: w2) <:+: t) :
    (w1 ++ ' ' :: w2) <:+: correct_voice_input t := by
  obtain ⟨u, v, huv⟩ := hin
  have hlowt : lowerStr t = (lowerStr u ++ w1) ++ ' ' :: (w2 ++ lowerStr v) := by
    rw [← huv]
    have hmid : List.map pyLower w1 ++ List.map pyLower (' ' :: w2) =
        w1 ++ ' ' :: w2 := by
      simpa [lowerStr, List.map_append] using hlow
    simp only [lowerStr, List.map_append]
    rw [hmid]
    simp [List.append_assoc]
  obtain ⟨A, x, hAx, hsuf⟩ :=
    tokens_word_append (lowerStr u) w1 h1 h1w
  obtain ⟨y, B, hyB, hpref⟩ :=
    tokens_append_word w2 (lowerStr v) h2 h2w
  have htok : tokens (lowerStr t) = A ++ x :: y :: B := by
    rw [hlowt, tokens_append_space, hAx, hyB]
    simp
  have hkeepx : (!isFiller x) = true := by
    rw [isFiller_false_of_suf hsuf hf1]; rfl
  have hkeepy : (!isFiller y) = true := by
    rw [isFiller_false_of_pref hpref hf2]; rfl
  have hcx : applyCorrection x = x := applyCorrection_id_of_suf hsuf hk1
  have hcy : applyCorrection y = y := applyCorrection_id_of_pref hpref hk2
  have hproc :
      ((tokens (lowerStr t)).filter (fun w => !isFiller w)).map applyCorrection =
        ((A.filter (fun w => !isFiller w)).map applyCorrection) ++
          x :: y :: ((B.filter (fun w => !isFiller w)).map applyCorrection) := by
    rw [htok, List.filter_append, List.map_append, List.filter_cons, hkeepx,
      List.filter_cons, hkeepy]
    simp [hcx, hcy]
  have hj := joinTok_adjacent
    ((A.filter (fun w => !isFiller w)).map applyCorrection)
    ((B.filter (fun w => !isFiller w)).map applyCorrection) x y
  rw [correct_voice_input, hproc]
  refine List.IsInfix.trans ?_ hj
  obtain ⟨x0, hx0⟩ := hsuf
  obtain ⟨y0, hy0⟩ := hpref
  refine ⟨x0, y0, ?_⟩
  rw [← hx0, ← hy0]
  simp [List.append_assoc]

/-- Lowercasing preserves occurrences of an already-lowercase phrase. -/
theorem infix_lowerStr {w t : Str} (hw : lowerStr w = w) (h : w <:+: t) :
    w <:+: lowerStr t := by
  obtain ⟨u, v, huv⟩ := h
  refine ⟨lowerStr u, lowerStr v, ?_⟩
  rw [← huv]
  simp only [lowerStr, List.map_append]
  rw [show List.map pyLower w = w from hw]

theorem substr_of_infix {p t : Str} (h : p <:+: t) : substr p t = true :=
  decide_eq_true h

/-- C4: for every text that contains "show cart" as a substring
anywhere, `detect_intent` returns `view_cart` (hence never
`search_product`); the normalization pass cannot break the phrase. -/
theorem show_cart_forces_view_cart (t : Str)
    (h : "show cart".data <:+: t) : detect_intent t = .view_cart := by
  have hshape : ("show cart".data : Str) = "show".data ++ ' ' :: "cart".data := by
    decide
  have hlt : "show cart".data <:+: lowerStr t := infix_lowerStr (by decide) h
  rw [hshape] at hlt
  have hn := cvi_preserves "show".data "cart".data (lowerStr t)
    (by decide) (by decide) (by decide) (by decide)
    (by decide) (by decide) (by decide) (by decide) (by decide) hlt
  have hany : anySub viewPhrases (correct_voice_input (lowerStr t)) = true := by
    rw [anySub, List.any_eq_true]
    refine ⟨"show cart".data, by simp [viewPhrases], ?_⟩
    rw [hshape]
    exact substr_of_infix hn
  simp only [detect_intent]
  rw [hany]
  simp

/-- Witness for the C4 theorem at a concrete input. -/
theorem show_cart_forces_view_cart_witness :
    detect_intent "please show cart now".data = .view_cart :=
  show_cart_forces_view_cart "please show cart now".data (by decide)

/-- C5 counterexample: "view cart clear cart" contains "clear cart" as
a substring, yet `detect_intent` classifies it `view_cart` (rule 1 wins),
not `clear_cart`. -/
theorem clear_cart_claim_counterexample :
    "clear cart".data <:+: "view cart clear cart".data ∧
      detect_intent "view cart clear cart".data = .view_cart ∧
      detect_intent "view cart clear cart".data ≠ .clear_cart := by
  refine ⟨by decide, by decide, by decide⟩

/-- C5 amended: for every text that contains "clear cart" or
"empty cart" as a substring and whose normalized form matches no
view-cart phrase (rule 1, which has higher priority), `detect_intent`
returns `clear_cart`, even if the text also contains "remove". -/
theorem clear_cart_wins_without_view_phrase (t : Str)
    (h : "clear cart".data <:+: t ∨ "empty cart".data <:+: t)
    (hview : anySub viewPhrases (correct_voice_input (lowerStr t)) = false) :
    detect_intent t = .clear_cart := by
  have hany : anySub clearPhrases (correct_voice_input (lowerStr t)) = true := by
    rcases h with h | h
    · have hshape : ("clear cart".data : Str) =
          "clear".data ++ ' ' :: "cart".data := by decide
      have hlt : "clear cart".data <:+: lowerStr t := infix_lowerStr (by decide) h
      rw [hshape] at hlt
      have hn := cvi_preserves "clear".data "cart".data
        (lowerStr t) (by decide) (by decide) (by decide) (by decide)
        (by decide) (by decide) (by decide) (by decide) (by decide) hlt
      rw [anySub, List.any_eq_true]
      refine ⟨"clear cart".data, by simp [clearPhrases], ?_⟩
      rw [hshape]
      exact substr_of_infix hn
    · have hshape : ("empty cart".data : Str) =
          "empty".data ++ ' ' :: "cart".data := by decide
      have hlt : "empty cart".data <:+: lowerStr t := infix_lowerStr (by decide) h
      rw [hshape] at hlt
      have hn := cvi_preserves "empty".data "cart".data
        (lowerStr t) (by decide) (by decide) (by decide) (by decide)
        (by decide) (by decide) (by decide) (by decide) (by decide) hlt
      rw [anySub, List.any_eq_true]
      refine ⟨"empty cart".data, by simp [clearPhrases], ?_⟩
      rw [hshape]
      exact substr_of_infix hn
  simp only [detect_intent]
  rw [hview, hany]
  simp

/-- Witness for the amended C5 theorem at a concrete input. -/
theorem clear_cart_wins_without_view_phrase_witness :
    detect_intent "remove stuff and clear cart".data = .clear_cart :=
  clear_cart_wins_without_view_phrase "remove stuff and clear cart".data
    (Or.inl (by decide)) (by decide)

/-- C6 counterexample: the input "list" reaches rule 6 and is
classified `list_products`, so the rule is not dead. -/
theorem list_products_reachable :
    detect_intent "list".data = .list_products := by decide

/-- C6 amended: rule 6 of the intent classifier is reachable — inputs
such as "all products" (or "list", "available") match none of rules 1-5
and are classified `list_products` rather than falling to the
`search_product` default. -/
theorem list_products_rule_not_dead :
    detect_intent "all products".data = .list_products ∧
      detect_intent "available".data = .list_products := by
  refine ⟨by decide, by decide⟩

/-- C1: evaluation of `extract_quantity` at the three spec test
vectors.  The first two agree with the spec; on "add 5 apples" the code
returns 1, not the specified 5, because the table entry "a" matches as
a substring of "add" before the digit fallback is ever consulted. -/
theorem extract_quantity_spec_vectors :
    extract_quantity "add two bananas".data = 2 ∧
      extract_quantity "add apple".data = 1 ∧
      extract_quantity "add 5 apples".data = 1 := by
  refine ⟨by decide, by decide, by decide⟩

/-- C2 counterexample: on the input "0" no word-number matches, the
digit fallback captures the run "0", and `extract_quantity` returns 0,
contradicting the claim that the result is always at least 1. -/
theorem extract_quantity_zero :
    extract_quantity "0".data = 0 := by decide

/-- C2 amended: `extract_quantity` never returns a negative value (its
sources are positive table entries and unsigned digit runs), and it
returns at least 1 in every case except when no word-number matches and
the boundary-delimited digit run it falls back to has the value 0, in
which case it returns 0. -/
theorem extract_quantity_positive_unless_zero_run (t : Str) :
    1 ≤ extract_quantity t ∨
      (extract_quantity t = 0 ∧ findQty t = some 0 ∧
        word_to_num.find? (fun p => substr p.1 (lowerStr t)) = none) := by
  by_cases hf : ∃ p, word_to_num.find? (fun q => substr q.1 (lowerStr t)) = some p
  · obtain ⟨p, hp⟩ := hf
    left
    have hmem := List.mem_of_find?_eq_some hp
    have hall : ∀ q ∈ word_to_num, 1 ≤ q.2 := by decide
    have : extract_quantity t = p.2 := by
      simp only [extract_quantity]
      rw [hp]
    rw [this]
    exact hall p hmem
  · have hnone : word_to_num.find? (fun q => substr q.1 (lowerStr t)) = none := by
      cases h : word_to_num.find? (fun q => substr q.1 (lowerStr t)) with
      | none => rfl
      | some p => exact absurd ⟨p, h⟩ hf
    cases hq : findQty t with
    | none =>
      left
      simp only [extract_quantity]
      rw [hnone, hq]
    | some n =>
      cases n with
      | zero =>
        right
        refine ⟨?_, rfl, hnone⟩
        simp only [extract_quantity]
        rw [hnone, hq]
      | succ m =>
        left
        have : extract_quantity t = m + 1 := by
          simp only [extract_quantity]
          rw [hnone, hq]
        rw [this]
        exact Nat.succ_le_succ (Nat.zero_le m)

theorem pyLower_idem (c : Char) : pyLower (pyLower c) = pyLower c := by
  cases h : upperToLower.find? (fun p => p.1 == c) with
  | none =>
    have h1 : pyLower c = c := by rw [pyLower, h]; rfl
    rw [h1, h1]
  | some p =>
    have h1 : pyLower c = p.2 := by rw [pyLower, h]; rfl
    have hmem := List.mem_of_find?_eq_some h
    have hall : ∀ q ∈ upperToLower, pyLower q.2 = q.2 := by decide
    rw [h1]
    exact hall p hmem

/-- Every token produced by `tokens` is nonempty, has no whitespace,
and draws its characters from the input. -/
theorem tokens_chars : ∀ (l : Str) (t : Str), t ∈ tokens l →
    t ≠ [] ∧ ∀ c ∈ t, c ∈ l ∧ c.isWhitespace = false
  | [], t, h => by simp [tokens_nil] at h
  | c :: cs, t, h => by
    by_cases hc : c.isWhitespace
    · rw [tokens_cons_neg _ hc] at h
      obtain ⟨hne, hall⟩ := tokens_chars cs t h
      exact ⟨hne, fun d hd =>
        ⟨List.mem_cons_of_mem _ (hall d hd).1, (hall d hd).2⟩⟩
    · have hc' : c.isWhitespace = false := by simpa using hc
      rw [tokens_cons_pos _ hc'] at h
      rcases List.mem_cons.mp h with h | h
      · subst h
        refine ⟨by simp, fun d hd => ?_⟩
        rcases List.mem_cons.mp hd with rfl | hd
        · exact ⟨List.mem_cons_self _ _, hc'⟩
        · have hP : notWs d = true := List.mem_takeWhile_imp hd
          have hdcs : d ∈ cs := (List.takeWhile_sublist notWs).subset hd
          exact ⟨List.mem_cons_of_mem _ hdcs, by simpa [notWs] using hP⟩
      · obtain ⟨hne, hall⟩ := tokens_chars (cs.dropWhile notWs) t h
        refine ⟨hne, fun d hd => ?_⟩
        obtain ⟨h1, h2⟩ := hall d hd
        exact ⟨List.mem_cons_of_mem _ ((List.dropWhile_sublist notWs).subset h1), h2⟩
termination_by l _ _ => l.length
decreasing_by
  · simp only [List.length_cons]; omega
  · have h := (List.dropWhile_sublist (l := cs) notWs).length_le
    simp only [List.length_cons]; omega

/-- Characters of the join are either the separating space or drawn
from one of the tokens. -/
theorem joinTok_chars : ∀ (L : List Str) (c : Char), c ∈ joinTok L →
    c = ' ' ∨ ∃ t ∈ L, c ∈ t
  | [], c, h => by simp [joinTok] at h
  | [t], c, h => by
    right
    exact ⟨t, by simp, by simpa [joinTok] using h⟩
  | t :: t' :: ts, c, h => by
    rw [joinTok] at h
    rcases List.mem_append.mp h with h | h
    · exact Or.inr ⟨t, by simp, h⟩
    · rcases List.mem_cons.mp h with rfl | h
      · exact Or.inl rfl
      · rcases joinTok_chars (t' :: ts) c h with h | ⟨q, hq, hcq⟩
        · exact Or.inl h
        · exact Or.inr ⟨q, List.mem_cons_of_mem _ hq, hcq⟩

theorem tokens_single (t : Str) (hne : t ≠ [])
    (hnw : ∀ c ∈ t, c.isWhitespace = false) : tokens t = [t] := by
  match t, hne with
  | c :: rest, _ =>
    have hc : c.isWhitespace = false := hnw c (by simp)
    have hrest : ∀ x ∈ rest, notWs x = true := by
      intro x hx; simp [notWs, hnw x (by simp [hx])]
    rw [tokens_cons_pos _ hc, List.takeWhile_eq_self_iff.mpr hrest,
      List.dropWhile_eq_nil_iff.mpr hrest, tokens_nil]

/-- Splitting the space-join of clean tokens recovers the tokens. -/
theorem tokens_joinTok : ∀ (L : List Str),
    (∀ t ∈ L, t ≠ [] ∧ ∀ c ∈ t, c.isWhitespace = false) →
    tokens (joinTok L) = L
  | [], _ => rfl
  | [t], h => by
    obtain ⟨hne, hnw⟩ := h t (by simp)
    rw [joinTok]
    exact tokens_single t hne hnw
  | t :: t' :: ts, h => by
    obtain ⟨hne, hnw⟩ := h t (by simp)
    rw [joinTok, tokens_append_space, tokens_single t hne hnw,
      tokens_joinTok (t' :: ts) (fun q hq => h q (List.mem_cons_of_mem _ hq))]
    rfl

/-- Every correction value is itself clean: a fixed point of the table,
not a filler word, nonempty, without whitespace, and lowercase. -/
theorem correction_values_clean :
    ∀ p ∈ COMMON_VOICE_CORRECTIONS,
      applyCorrection p.2 = p.2 ∧ isFiller p.2 = false ∧ p.2 ≠ [] ∧
        ∀ c ∈ p.2, c.isWhitespace = false ∧ pyLower c = c := by
  decide

theorem applyCorrection_cases (w : Str) :
    applyCorrection w = w ∨
      ∃ p ∈ COMMON_VOICE_CORRECTIONS, applyCorrection w = p.2 := by
  cases h : COMMON_VOICE_CORRECTIONS.find? (fun p => p.1 == w) with
  | none => left; rw [applyCorrection, h]; rfl
  | some p =>
    right
    exact ⟨p, List.mem_of_find?_eq_some h, by rw [applyCorrection, h]; rfl⟩

theorem applyCorrection_idem (w : Str) :
    applyCorrection (applyCorrection w) = applyCorrection w := by
  rcases applyCorrection_cases w with h | ⟨p, hp, h⟩
  · rw [h]
    exact h
  · rw [h]
    exact (correction_values_clean p hp).1

/-- C10: the lexical normalizer is idempotent — its output tokens are
lowercase, free of filler words, and fixed points of the correction
table, so a second pass changes nothing. -/
theorem correct_voice_input_idem (s : Str) :
    correct_voice_input (correct_voice_input s) = correct_voice_input s := by
  have hsep : pyLower ' ' = ' ' := by decide
  set L := ((tokens (lowerStr s)).filter (fun w => !isFiller w)).map
    applyCorrection with hLdef
  have hLsrc : ∀ t ∈ L, ∃ w, w ∈ tokens (lowerStr s) ∧ isFiller w = false ∧
      t = applyCorrection w := by
    intro t ht
    rw [hLdef] at ht
    obtain ⟨w, hw, rfl⟩ := List.mem_map.mp ht
    have hwf := List.mem_filter.mp hw
    exact ⟨w, hwf.1, by simpa using hwf.2, rfl⟩
  have htokprops : ∀ t ∈ L, t ≠ [] ∧ ∀ c ∈ t, c.isWhitespace = false := by
    intro t ht
    obtain ⟨w, hw, _, rfl⟩ := hLsrc t ht
    obtain ⟨hne, hchars⟩ := tokens_chars (lowerStr s) w hw
    rcases applyCorrection_cases w with h | ⟨p, hp, h⟩
    · rw [h]
      exact ⟨hne, fun c hc => (hchars c hc).2⟩
    · rw [h]
      obtain ⟨_, _, hvne, hvchars⟩ := correction_values_clean p hp
      exact ⟨hvne, fun c hc => (hvchars c hc).1⟩
  have hcharfix : ∀ t ∈ L, ∀ c ∈ t, pyLower c = c := by
    intro t ht c hc
    obtain ⟨w, hw, _, rfl⟩ := hLsrc t ht
    rcases applyCorrection_cases w with h | ⟨p, hp, h⟩
    · rw [h] at hc
      obtain ⟨_, hchars⟩ := tokens_chars (lowerStr s) w hw
      have hcl : c ∈ lowerStr s := (hchars c hc).1
      obtain ⟨c0, _, rfl⟩ := List.mem_map.mp hcl
      exact pyLower_idem c0
    · rw [h] at hc
      exact ((correction_values_clean p hp).2.2.2 c hc).2
  have hout_fix : ∀ c ∈ joinTok L, pyLower c = c := by
    intro c hc
    rcases joinTok_chars L c hc with rfl | ⟨t, ht, hct⟩
    · exact hsep
    · exact hcharfix t ht c hct
  have hlowid : lowerStr (joinTok L) = joinTok L := by
    rw [lowerStr]
    rw [List.map_congr_left hout_fix]
    exact List.map_id _
  have hkeep : ∀ t ∈ L, (!isFiller t) = true := by
    intro t ht
    obtain ⟨w, hw, hwf, rfl⟩ := hLsrc t ht
    rcases applyCorrection_cases w with h | ⟨p, hp, h⟩
    · rw [h, hwf]; rfl
    · rw [h, (correction_values_clean p hp).2.1]; rfl
  have hmap : ∀ t ∈ L, applyCorrection t = t := by
    intro t ht
    obtain ⟨w, _, _, rfl⟩ := hLsrc t ht
    exact applyCorrection_idem w
  conv_lhs => rw [correct_voice_input, correct_voice_input, ← hLdef]
  rw [hlowid, tokens_joinTok L htokprops, List.filter_eq_self.mpr hkeep,
    List.map_congr_left hmap]
  rw [show List.map (fun a => a) L = L from List.map_id _,
    correct_voice_input, ← hLdef]

theorem mem_insertDesc {x y : Scored} : ∀ {l : List Scored},
    y ∈ insertDesc x l → y = x ∨ y ∈ l
  | [], h => by
    rw [insertDesc] at h
    exact Or.inl (by simpa using h)
  | z :: zs, h => by
    rw [insertDesc] at h
    split at h
    · rcases List.mem_cons.mp h with rfl | h
      · exact Or.inr (List.mem_cons_self _ _)
      · rcases mem_insertDesc h with h | h
        · exact Or.inl h
        · exact Or.inr (List.mem_cons_of_mem _ h)
    · rcases List.mem_cons.mp h with rfl | h
      · exact Or.inl rfl
      · exact Or.inr h

theorem insertDesc_sorted {x : Scored} : ∀ {l : List Scored},
    SortedDescBy l → SortedDescBy (insertDesc x l)
  | [], _ => by simp [insertDesc, SortedDescBy]
  | z :: zs, h => by
    simp only [SortedDescBy, List.pairwise_cons] at h
    obtain ⟨hz, hzs⟩ := h
    rw [insertDesc]
    split
    · rename_i hle
      simp only [SortedDescBy, List.pairwise_cons]
      refine ⟨fun q hq => ?_, insertDesc_sorted hzs⟩
      rcases mem_insertDesc hq with rfl | hq
      · exact le_of_lt hle
      · exact hz q hq
    · rename_i hgt
      simp only [SortedDescBy, List.pairwise_cons]
      refine ⟨fun q hq => ?_, ⟨hz, hzs⟩⟩
      rcases List.mem_cons.mp hq with rfl | hq
      · exact le_of_not_lt hgt
      · exact le_trans (hz q hq) (le_of_not_lt hgt)

theorem sortDesc_sorted : ∀ (l : List Scored), SortedDescBy (sortDesc l)
  | [] => by simp [sortDesc, SortedDescBy]
  | x :: xs => insertDesc_sorted (sortDesc_sorted xs)

theorem insertDesc_perm (x : Scored) : ∀ l : List Scored,
    (insertDesc x l).Perm (x :: l)
  | [] => List.Perm.refl _
  | y :: ys => by
    rw [insertDesc]
    split
    · exact ((insertDesc_perm x ys).cons y).trans (List.Perm.swap x y ys)
    · exact List.Perm.refl _

theorem sortDesc_perm : ∀ l : List Scored, (sortDesc l).Perm l
  | [] => List.Perm.refl _
  | x :: xs => by
    rw [sortDesc]
    exact (insertDesc_perm x (sortDesc xs)).trans ((sortDesc_perm xs).cons x)

theorem filter_insertDesc_eq {c : ℚ} {x : Scored} (hx : scoreOf x = c) :
    ∀ l : List Scored,
      (insertDesc x l).filter (fun r => decide (scoreOf r = c)) =
        x :: l.filter (fun r => decide (scoreOf r = c))
  | [] => by simp [insertDesc, hx]
  | y :: ys => by
    rw [insertDesc]
    split
    · rename_i hlt
      have hy : ¬ scoreOf y = c := by
        intro h
        rw [h, ← hx] at hlt
        exact lt_irrefl _ hlt
      rw [List.filter_cons_of_neg (by simp [hy]),
        filter_insertDesc_eq hx ys,
        List.filter_cons_of_neg (by simp [hy])]
    · exact List.filter_cons_of_pos (by simp [hx])

theorem filter_insertDesc_ne {c : ℚ} {x : Scored} (hx : ¬ scoreOf x = c) :
    ∀ l : List Scored,
      (insertDesc x l).filter (fun r => decide (scoreOf r = c)) =
        l.filter (fun r => decide (scoreOf r = c))
  | [] => by simp [insertDesc, hx]
  | y :: ys => by
    rw [insertDesc]
    split
    · simp only [List.filter_cons, filter_insertDesc_ne hx ys]
    · exact List.filter_cons_of_neg (by simp [hx])

/-- `sortDesc` is stable: filtering the output at any fixed score
returns the elements of that score class exactly in input order, as
the guaranteed-stable Python `list.sort` does. -/
theorem sortDesc_stable : ∀ (l : List Scored) (c : ℚ),
    (sortDesc l).filter (fun r => decide (scoreOf r = c)) =
      l.filter (fun r => decide (scoreOf r = c))
  | [], _ => rfl
  | x :: xs, c => by
    rw [sortDesc]
    by_cases hx : scoreOf x = c
    · rw [filter_insertDesc_eq hx, sortDesc_stable xs c,
        List.filter_cons_of_pos (by simp [hx])]
    · rw [filter_insertDesc_ne hx, sortDesc_stable xs c,
        List.filter_cons_of_neg (by simp [hx])]

/-- C9: `get_related_recommendations` computes exactly the scoring,
filtering, sorting and truncation the claim describes (for an existing
anchor with positive price — the source divides by the anchor price).
Its output is sorted by descending score, and the sort is a stable
permutation of the scored products, which are listed in catalog order:
filtering the sorted list at any fixed score returns the tied products
exactly in catalog order, as Python's guaranteed-stable `list.sort`
does.  On the claim example the same-category product at 110 (score
80) ranks above the different-category product at 105 (score 30), and
on a catalog whose two non-anchor products tie at score 80 the tie
comes out in catalog order. -/
theorem related_recommendations_correct :
    (∀ (products : List Product) (pid : Str) (limit : Nat) (anchor : Product),
      products.find? (fun p => p.id == pid) = some anchor →
      0 < anchor.price →
      get_related_recommendations products pid limit =
        specRelated products pid anchor limit ∧
      SortedDescBy (get_related_recommendations products pid limit) ∧
      (sortDesc (relatedScored products pid anchor)).Perm
        (relatedScored products pid anchor) ∧
      (∀ c : ℚ,
        (sortDesc (relatedScored products pid anchor)).filter
            (fun r => decide (scoreOf r = c)) =
          (relatedScored products pid anchor).filter
            (fun r => decide (scoreOf r = c)))) ∧
    get_related_recommendations exCatalog "a".data 5 =
      [(exSame, some 80), (exDiff, some 30)] ∧
    get_related_recommendations exTieCatalog "a".data 5 =
      [(exTie1, some 80), (exTie2, some 80)] := by
  refine ⟨?_, ?_, ?_⟩
  · intro products pid limit anchor hfind hpos
    have hmain : get_related_recommendations products pid limit =
        specRelated products pid anchor limit := by
      simp only [get_related_recommendations, hfind, specRelated, relatedScored]
      congr 1
      congr 1
      apply List.filterMap_congr
      intro p _
      have hscore :
          (if p.category = anchor.category then (50 : ℚ) else 0) +
            (if |p.price - anchor.price| / anchor.price < 3/10 then 30
             else if |p.price - anchor.price| / anchor.price < 1/2 then 15
             else 0) = specRelScore anchor p := by
        rw [specRelScore]
        congr 1
        simp only [div_lt_iff₀ hpos]
      by_cases hid : p.id = pid
      · simp [hid]
      · simp only [beq_iff_eq, hid, if_false, hscore]
    refine ⟨hmain, ?_, sortDesc_perm _, fun c => sortDesc_stable _ c⟩
    rw [hmain, specRelated]
    exact List.Pairwise.sublist (List.take_sublist _ _) (sortDesc_sorted _)
  · have hfind : exCatalog.find? (fun p => p.id == "a".data) = some exAnchor := by
      rfl
    have hd1 : |(110 : ℚ) - 100| = 10 := by
      rw [show (110 : ℚ) - 100 = 10 by norm_num]
      exact abs_of_nonneg (by norm_num)
    have hd2 : |(105 : ℚ) - 100| = 5 := by
      rw [show (105 : ℚ) - 100 = 5 by norm_num]
      exact abs_of_nonneg (by norm_num)
    simp +decide only [get_related_recommendations, relatedScored, hfind,
      exCatalog, exAnchor, exSame, exDiff, List.filterMap_cons,
      List.filterMap_nil]
    norm_num [hd1, hd2, sortDesc, insertDesc, scoreOf,
      (by decide : (('h' : Char) = 'g') = False)]
  · have hfind : exTieCatalog.find? (fun p => p.id == "a".data) = some exAnchor2 := by
      rfl
    have hd : |(100 : ℚ) - 100| = 0 := by
      rw [show (100 : ℚ) - 100 = 0 by norm_num]
      exact abs_of_nonneg (by norm_num)
    simp +decide only [get_related_recommendations, relatedScored, hfind,
      exTieCatalog, exAnchor2, exTie1, exTie2, List.filterMap_cons,
      List.filterMap_nil]
    norm_num [hd, sortDesc, insertDesc, scoreOf]

/-- Witness for the C9 theorem at the example catalog, with the
stability equation instantiated at the score 80. -/
theorem related_recommendations_correct_witness :
    get_related_recommendations exCatalog "a".data 5 =
        specRelated exCatalog "a".data exAnchor 5 ∧
      SortedDescBy (get_related_recommendations exCatalog "a".data 5) ∧
      (sortDesc (relatedScored exCatalog "a".data exAnchor)).filter
          (fun r => decide (scoreOf r = 80)) =
        (relatedScored exCatalog "a".data exAnchor).filter
          (fun r => decide (scoreOf r = 80)) := by
  have h := related_recommendations_correct.1 exCatalog "a".data 5 exAnchor rfl
    (by norm_num [exAnchor])
  exact ⟨h.1, h.2.1, h.2.2.2 80⟩

/-- C3: collaborator failure is fatal on the `view_cart` and
`clear_cart` paths (their HTTP calls are not wrapped in `try`/`except`,
so the exception escapes `parse_command`), while on the `add_to_cart`
and `remove_from_cart` paths the same failure is caught at the call
site and degrades to a "sync pending" message with intent and
confidence unaffected.  This contradicts the claim that every
collaborator call is caught. -/
theorem parse_command_collaborator_failure :
    parse_command envFail "show cart".data (some "u1".data) = .error () ∧
    parse_command envFail "clear cart".data (some "u1".data) = .error () ∧
    parse_command envFail "add apple".data (some "u1".data) =
      .ok { intent := .add_to_cart,
            slots := { product_name := some "apple".data,
                       product_id := some "p1".data, quantity := 1,
                       category := some "fruits".data, cart := none },
            confidence := 1, recommendations := [],
            message := .addedSyncPending 1 "apple".data,
            user_id := some "u1".data } ∧
    parse_command envFail "remove apple".data (some "u1".data) =
      .ok { intent := .remove_from_cart,
            slots := { product_name := some "apple".data,
                       product_id := some "p1".data, quantity := 1,
                       category := some "fruits".data, cart := none },
            confidence := 1, recommendations := [],
            message := .removedSyncPending "apple".data,
            user_id := some "u1".data } := by
  refine ⟨by decide, by decide, ?_, ?_⟩
  · simp +decide only [parse_command, resolveBranch, boundRecord, boundMsg, baseR, base0R, envFail,
      extractOne, extractOneAux, get_related_recommendations, relatedScored, appleProduct,
      List.map_cons, List.map_nil, List.filterMap_cons, List.filterMap_nil,
      sortDesc, List.take_nil, emptySlots]
    norm_num [round2, rhe]
    decide
  · simp +decide only [parse_command, resolveBranch, boundRecord, boundMsg, baseR, base0R, envFail,
      extractOne, extractOneAux, get_related_recommendations, relatedScored, appleProduct,
      List.map_cons, List.map_nil, List.filterMap_cons, List.filterMap_nil,
      sortDesc, List.take_nil, emptySlots]
    norm_num [round2, rhe]
    decide

theorem similarFallback_empty (env : Env) (text : Str) (base : ParsedResult)
    (h : get_similar_products env text 5 = []) :
    similarFallback env text base =
      .ok { base with message := .noMatch text } := by
  unfold similarFallback
  rw [if_pos h]

theorem similarFallback_nonempty (env : Env) (text : Str) (base : ParsedResult)
    (h : ¬ get_similar_products env text 5 = []) :
    similarFallback env text base =
      .ok { base with
            recommendations := get_similar_products env text 5,
            message := .noExactMatch text,
            confidence := 1/2 } := by
  unfold similarFallback
  rw [if_neg h]

/-- C7: in the product-resolution branch of `parse_command` (nonempty
normalized text, nonempty catalog, non-direct intent), a catalog
product is bound to the result if and only if the best token-set score
against the catalog product names is at least 60; when the gate fails,
the result carries the free-text similarity recommendations with
confidence exactly 1/2, or confidence 0 with the explicit no-match
message when the similarity search returns nothing. -/
theorem product_binding_gate (env : Env) (text0 : Str) (uid : Option Str)
    (htext : ¬ preprocess text0 = [])
    (hprod : ¬ env.products = [])
    (hint : detect_intent (preprocess text0) = .add_to_cart ∨
            detect_intent (preprocess text0) = .remove_from_cart ∨
            detect_intent (preprocess text0) = .search_product) :
    ∃ r, parse_command env text0 uid = .ok r ∧
      ((∃ n s, extractOne env.tokenSetRatio (preprocess text0)
          (env.products.map (fun p => lowerStr p.name)) = some (n, s) ∧
          60 ≤ s) ↔ r.slots.product_id.isSome = true) ∧
      (∀ n s, extractOne env.tokenSetRatio (preprocess text0)
          (env.products.map (fun p => lowerStr p.name)) = some (n, s) →
        ¬ 60 ≤ s →
        r.slots.product_id = none ∧
        (¬ get_similar_products env (preprocess text0) 5 = [] →
          r.confidence = 1/2 ∧
          r.recommendations = get_similar_products env (preprocess text0) 5 ∧
          r.message = .noExactMatch (preprocess text0)) ∧
        (get_similar_products env (preprocess text0) 5 = [] →
          r.confidence = 0 ∧ r.recommendations = [] ∧
          r.message = .noMatch (preprocess text0))) := by
  have hi1 : ¬ detect_intent (preprocess text0) = .view_cart := by
    rcases hint with h | h | h <;> rw [h] <;> decide
  have hi2 : ¬ detect_intent (preprocess text0) = .clear_cart := by
    rcases hint with h | h | h <;> rw [h] <;> decide
  have hi3 : ¬ detect_intent (preprocess text0) = .list_products := by
    rcases hint with h | h | h <;> rw [h] <;> decide
  unfold parse_command
  rw [if_neg htext, if_neg hprod, if_neg hi1, if_neg hi2, if_neg hi3]
  unfold resolveBranch
  rcases hext : extractOne env.tokenSetRatio (preprocess text0)
      (env.products.map (fun p => lowerStr p.name)) with _ | ⟨n, s⟩
  · exact absurd hext (extractOne_ne_none (by simpa using hprod))
  · simp only [hext]
    by_cases hge : 60 ≤ s
    · rw [if_pos hge]
      have hmem : n ∈ env.products.map (fun p => lowerStr p.name) :=
        extractOne_fst_mem hext
      obtain ⟨p0, hp0mem, hp0eq⟩ := List.mem_map.mp hmem
      have hfind_some : (env.products.find? (fun p => lowerStr p.name == n)).isSome := by
        rw [List.find?_isSome]
        exact ⟨p0, hp0mem, by simp [hp0eq]⟩
      rcases hfind : env.products.find? (fun p => lowerStr p.name == n) with _ | mp
      · rw [hfind] at hfind_some
        simp at hfind_some
      · simp only [hfind]
        refine ⟨_, rfl, ?_, ?_⟩
        · constructor
          · intro _
            rfl
          · intro _
            exact ⟨n, s, rfl, hge⟩
        · intro n' s' h' hlt
          injection h' with h'
          injection h' with h1 h2
          exact absurd (h2 ▸ hge) hlt
    · rw [if_neg hge]
      by_cases hsim : get_similar_products env (preprocess text0) 5 = []
      · rw [similarFallback_empty env (preprocess text0) _ hsim]
        refine ⟨_, rfl, ?_, ?_⟩
        · constructor
          · rintro ⟨n', s', h', hge'⟩
            injection h' with h'
            injection h' with h1 h2
            exact absurd (h2 ▸ hge') hge
          · intro hsome
            simp [baseR, base0R, emptySlots] at hsome
        · intro n' s' h' hlt
          exact ⟨rfl, fun hne => absurd hsim hne, fun _ => ⟨rfl, rfl, rfl⟩⟩
      · rw [similarFallback_nonempty env (preprocess text0) _ hsim]
        refine ⟨_, rfl, ?_, ?_⟩
        · constructor
          · rintro ⟨n', s', h', hge'⟩
            injection h' with h'
            injection h' with h1 h2
            exact absurd (h2 ▸ hge') hge
          · intro hsome
            simp [baseR, base0R, emptySlots] at hsome
        · intro n' s' h' hlt
          exact ⟨rfl, fun _ => ⟨rfl, rfl, rfl⟩, fun he => absurd he hsim⟩

/-- Witness for the C7 theorem at a concrete input. -/
theorem product_binding_gate_witness :
    ∃ r, parse_command envOk "add apple".data none = .ok r ∧
      ((∃ n s, extractOne envOk.tokenSetRatio (preprocess "add apple".data)
          (envOk.products.map (fun p => lowerStr p.name)) = some (n, s) ∧
          60 ≤ s) ↔ r.slots.product_id.isSome = true) ∧
      (∀ n s, extractOne envOk.tokenSetRatio (preprocess "add apple".data)
          (envOk.products.map (fun p => lowerStr p.name)) = some (n, s) →
        ¬ 60 ≤ s →
        r.slots.product_id = none ∧
        (¬ get_similar_products envOk (preprocess "add apple".data) 5 = [] →
          r.confidence = 1/2 ∧
          r.recommendations = get_similar_products envOk (preprocess "add apple".data) 5 ∧
          r.message = .noExactMatch (preprocess "add apple".data)) ∧
        (get_similar_products envOk (preprocess "add apple".data) 5 = [] →
          r.confidence = 0 ∧ r.recommendations = [] ∧
          r.message = .noMatch (preprocess "add apple".data))) :=
  product_binding_gate envOk "add apple".data none (by decide) (by decide)
    (Or.inl (by decide))

/-- C8 counterexample: with an empty catalog and the input "show cart",
the returned result has the direct intent `view_cart` but confidence 0,
not 1 — the catalog check returns before the direct-intent branches
run. -/
theorem direct_intent_confidence_not_one :
    ∃ r, parse_command envEmpty "show cart".data none = .ok r ∧
      r.intent = .view_cart ∧ r.confidence = 0 :=
  ⟨_, rfl, by decide, by decide⟩

/-- C8 (amended): the confidence of every returned `ParsedCommand`
lies in [0,1], and it is: 0 on empty input; 0 on an empty catalog
(even when the detected intent is a direct one, which refutes the
original claim); 1 for the direct intents on a nonempty catalog;
`round2 (score/100)` (hence between 0.6 and 1) when a product is
bound; 1/2 when no product resolves but similarity recommendations
are nonempty; and 0 when the similarity search also returns nothing. -/
theorem confidence_policy (env : Env) (uid : Option Str) (text0 : Str)
    (r : ParsedResult)
    (hb : ∀ a b, 0 ≤ env.tokenSetRatio a b ∧ env.tokenSetRatio a b ≤ 100)
    (hok : parse_command env text0 uid = .ok r) :
    (0 ≤ r.confidence ∧ r.confidence ≤ 1) ∧
    (preprocess text0 = [] → r.confidence = 0) ∧
    (¬ preprocess text0 = [] → env.products = [] → r.confidence = 0) ∧
    (¬ preprocess text0 = [] → ¬ env.products = [] →
      (detect_intent (preprocess text0) = .view_cart ∨
       detect_intent (preprocess text0) = .clear_cart ∨
       detect_intent (preprocess text0) = .list_products) →
      r.confidence = 1) ∧
    (r.slots.product_id.isSome = true →
      ∃ n s, extractOne env.tokenSetRatio (preprocess text0)
          (env.products.map (fun p => lowerStr p.name)) = some (n, s) ∧
        60 ≤ s ∧ r.confidence = round2 (s / 100) ∧ 3/5 ≤ r.confidence) ∧
    (¬ preprocess text0 = [] → ¬ env.products = [] →
      ¬ detect_intent (preprocess text0) = .view_cart →
      ¬ detect_intent (preprocess text0) = .clear_cart →
      ¬ detect_intent (preprocess text0) = .list_products →
      r.slots.product_id = none →
      (¬ r.recommendations = [] → r.confidence = 1/2) ∧
      (r.recommendations = [] → r.confidence = 0)) := by
  unfold parse_command at hok
  by_cases htext : preprocess text0 = []
  · rw [if_pos htext] at hok
    injection hok with hok
    subst hok
    refine ⟨by norm_num [base0R], fun _ => by simp [base0R],
      fun h _ => absurd htext h, fun h _ _ => absurd htext h,
      fun hs => ?_, fun h _ _ _ _ _ => absurd htext h⟩
    simp [base0R, emptySlots] at hs
  · rw [if_neg htext] at hok
    by_cases hprod : env.products = []
    · rw [if_pos hprod] at hok
      injection hok with hok
      subst hok
      refine ⟨by norm_num [baseR, base0R], fun h => absurd h htext,
        fun _ _ => by simp [baseR, base0R],
        fun _ hp _ => absurd hprod hp, fun hs => ?_,
        fun _ hp _ _ _ _ => absurd hprod hp⟩
      simp [baseR, base0R, emptySlots] at hs
    · rw [if_neg hprod] at hok
      by_cases hview : detect_intent (preprocess text0) = .view_cart
      · rw [if_pos hview] at hok
        unfold viewBranch at hok
        rcases hg : env.getCart uid with e | cart
        · rw [hg] at hok
          simp at hok
        · rw [hg] at hok
          injection hok with hok
          subst hok
          refine ⟨by norm_num, fun h => absurd h htext,
            fun _ hp => absurd hp hprod, fun _ _ _ => rfl,
            fun hs => ?_, fun _ _ hv _ _ _ => absurd hview hv⟩
          simp [baseR, base0R, emptySlots] at hs
      · rw [if_neg hview] at hok
        by_cases hclear : detect_intent (preprocess text0) = .clear_cart
        · rw [if_pos hclear] at hok
          unfold clearBranch at hok
          rcases hg : env.clearCart uid with e | u
          · rw [hg] at hok
            simp at hok
          · rw [hg] at hok
            injection hok with hok
            subst hok
            refine ⟨by norm_num, fun h => absurd h htext,
              fun _ hp => absurd hp hprod, fun _ _ _ => rfl,
              fun hs => ?_, fun _ _ _ hc _ _ => absurd hclear hc⟩
            simp [baseR, base0R, emptySlots] at hs
        · rw [if_neg hclear] at hok
          by_cases hlist : detect_intent (preprocess text0) = .list_products
          · rw [if_pos hlist] at hok
            injection hok with hok
            subst hok
            refine ⟨by norm_num, fun h => absurd h htext,
              fun _ hp => absurd hp hprod, fun _ _ _ => rfl,
              fun hs => ?_, fun _ _ _ _ hl _ => absurd hlist hl⟩
            simp [baseR, base0R, emptySlots] at hs
          · rw [if_neg hlist] at hok
            unfold resolveBranch at hok
            rcases hext : extractOne env.tokenSetRatio (preprocess text0)
                (env.products.map (fun p => lowerStr p.name)) with _ | ⟨n, s⟩
            · exact absurd hext (extractOne_ne_none (by simpa using hprod))
            · simp only [hext] at hok
              by_cases hge : 60 ≤ s
              · rw [if_pos hge] at hok
                have hmem : n ∈ env.products.map (fun p => lowerStr p.name) :=
                  extractOne_fst_mem hext
                obtain ⟨p0, hp0mem, hp0eq⟩ := List.mem_map.mp hmem
                have hfind_some :
                    (env.products.find? (fun p => lowerStr p.name == n)).isSome := by
                  rw [List.find?_isSome]
                  exact ⟨p0, hp0mem, by simp [hp0eq]⟩
                rcases hfind : env.products.find? (fun p => lowerStr p.name == n)
                    with _ | mp
                · rw [hfind] at hfind_some
                  simp at hfind_some
                · rw [hfind] at hok
                  injection hok with hok
                  subst hok
                  obtain ⟨h0, h100⟩ := extractOne_score_bounds hb hext
                  obtain ⟨h35, hle1, h0le⟩ := round2_score_bounds h0 h100 hge
                  have hc : (boundRecord env uid (detect_intent (preprocess text0))
                      (extract_quantity (preprocess text0))
                      (baseR (preprocess text0) uid) mp s).confidence =
                      round2 (s / 100) := rfl
                  refine ⟨by rw [hc]; exact ⟨h0le, hle1⟩,
                    fun h => absurd h htext, fun _ hp => absurd hp hprod,
                    fun _ _ hd => ?_, fun _ => ?_, fun _ _ _ _ _ hpid => ?_⟩
                  · rcases hd with h | h | h
                    · exact absurd h hview
                    · exact absurd h hclear
                    · exact absurd h hlist
                  · exact ⟨n, s, hext, hge, hc, by rw [hc]; exact h35⟩
                  · simp [boundRecord, baseR, base0R, emptySlots] at hpid
              · rw [if_neg hge] at hok
                by_cases hsim : get_similar_products env (preprocess text0) 5 = []
                · rw [similarFallback_empty _ _ _ hsim] at hok
                  injection hok with hok
                  subst hok
                  refine ⟨by norm_num [baseR, base0R],
                    fun h => absurd h htext, fun _ hp => absurd hp hprod,
                    fun _ _ hd => ?_, fun hs => ?_,
                    fun _ _ _ _ _ _ => ⟨fun hne => ?_, fun _ => by simp [baseR, base0R]⟩⟩
                  · rcases hd with h | h | h
                    · exact absurd h hview
                    · exact absurd h hclear
                    · exact absurd h hlist
                  · simp [baseR, base0R, emptySlots] at hs
                  · exact absurd (by simp [baseR, base0R] :
                      ({ baseR (preprocess text0) uid with
                         message := Msg.noMatch (preprocess text0) } :
                        ParsedResult).recommendations = []) hne
                · rw [similarFallback_nonempty _ _ _ hsim] at hok
                  injection hok with hok
                  subst hok
                  refine ⟨by norm_num, fun h => absurd h htext,
                    fun _ hp => absurd hp hprod, fun _ _ hd => ?_,
                    fun hs => ?_,
                    fun _ _ _ _ _ _ => ⟨fun _ => rfl, fun hrec => ?_⟩⟩
                  · rcases hd with h | h | h
                    · exact absurd h hview
                    · exact absurd h hclear
                    · exact absurd h hlist
                  · simp [baseR, base0R, emptySlots] at hs
                  · simp only [] at hrec
                    exact absurd hrec hsim

theorem parse_command_envOk_add :
    parse_command envOk "add apple".data none = .ok rW := by
  simp +decide only [parse_command, resolveBranch, boundRecord, boundMsg, baseR,
    base0R, envOk, rW, extractOne, extractOneAux, get_related_recommendations, relatedScored,
    appleProduct, List.map_cons, List.map_nil, List.filterMap_cons,
    List.filterMap_nil, sortDesc, List.take_nil, emptySlots]
  norm_num [round2, rhe]
  decide

/-- Witness for the C8 theorem at a concrete input. -/
theorem confidence_policy_witness :
    (0 ≤ rW.confidence ∧ rW.confidence ≤ 1) ∧
    (preprocess "add apple".data = [] → rW.confidence = 0) ∧
    (¬ preprocess "add apple".data = [] → envOk.products = [] →
      rW.confidence = 0) ∧
    (¬ preprocess "add apple".data = [] → ¬ envOk.products = [] →
      (detect_intent (preprocess "add apple".data) = .view_cart ∨
       detect_intent (preprocess "add apple".data) = .clear_cart ∨
       detect_intent (preprocess "add apple".data) = .list_products) →
      rW.confidence = 1) ∧
    (rW.slots.product_id.isSome = true →
      ∃ n s, extractOne envOk.tokenSetRatio (preprocess "add apple".data)
          (envOk.products.map (fun p => lowerStr p.name)) = some (n, s) ∧
        60 ≤ s ∧ rW.confidence = round2 (s / 100) ∧ 3/5 ≤ rW.confidence) ∧
    (¬ preprocess "add apple".data = [] → ¬ envOk.products = [] →
      ¬ detect_intent (preprocess "add apple".data) = .view_cart →
      ¬ detect_intent (preprocess "add apple".data) = .clear_cart →
      ¬ detect_intent (preprocess "add apple".data) = .list_products →
      rW.slots.product_id = none →
      (¬ rW.recommendations = [] → rW.confidence = 1/2) ∧
      (rW.recommendations = [] → rW.confidence = 0)) :=
  confidence_policy envOk none "add apple".data rW
    (fun _ _ => ⟨by norm_num [envOk], by norm_num [envOk]⟩)
    parse_command_envOk_add

end VoiceShop
